import Mathlib

/-!
Verification of the marker-parsing and resolution pipeline of the
obsidian-blogg-plugin repository (src/main.ts).  JavaScript strings are
modelled as `List Char`; each definition below is a direct translation of
the corresponding TypeScript function.
-/

/-- Converts a Lean string literal to the `List Char` model of a JS string. -/
def strOf (s : String) : List Char :=
  s.data

/-- JS whitespace (the `\s` class and `String.prototype.trim` set):
WhiteSpace, LineTerminator and the Zs category code points. -/
def isJsWs (c : Char) : Bool :=
  let n := c.toNat
  n == 9 || n == 10 || n == 11 || n == 12 || n == 13 || n == 32 ||
  n == 160 || n == 0x1680 || (Nat.ble 0x2000 n && Nat.ble n 0x200A) ||
  n == 0x2028 || n == 0x2029 || n == 0x202F || n == 0x205F ||
  n == 0x3000 || n == 0xFEFF

/-- Removes trailing JS whitespace. -/
def dropTrailWs (l : List Char) : List Char :=
  (l.reverse.dropWhile isJsWs).reverse

/-- Model of `String.prototype.trim`. -/
def jsTrim (l : List Char) : List Char :=
  dropTrailWs (l.dropWhile isJsWs)

/-- The record produced by `parseMetaActions` (type `MetaAction` in main.ts). -/
structure MetaAction where
  actionType : List Char
  instruction : List Char
  raw : List Char
deriving DecidableEq, Repr

/-- One raw regex match of `/@\(([^)]+)\)\[([^\]]+)\]/g`: the start index and
the two capture groups. -/
structure RawMatch where
  pos : Nat
  g1 : List Char
  g2 : List Char
deriving DecidableEq, Repr

/-- The full text matched for groups `g1`, `g2`: `@(` g1 `)[` g2 `]`. -/
def mkRaw (g1 g2 : List Char) : List Char :=
  '@' :: '(' :: (g1 ++ ')' :: '[' :: (g2 ++ [']']))

/-- The matched source text (`match[0]`) of a raw match. -/
def rawOf (m : RawMatch) : List Char :=
  mkRaw m.g1 m.g2

/-- Attempts the regex `@\(([^)]+)\)\[([^\]]+)\]` at the head of the list.
Both `[^)]+` and `[^\]]+` are greedy with no successful backtracking, so the
match is the maximal run up to the first closing delimiter.  Returns the two
capture groups and the remaining text. -/
def matchAt : List Char → Option (List Char × List Char × List Char)
  | '@' :: '(' :: rest =>
    match rest.takeWhile (fun c => c != ')'), rest.dropWhile (fun c => c != ')') with
    | [], _ => none
    | c1 :: g1t, ')' :: '[' :: rest2 =>
      match rest2.takeWhile (fun c => c != ']'), rest2.dropWhile (fun c => c != ']') with
      | [], _ => none
      | c2 :: g2t, ']' :: rest3 => some (c1 :: g1t, c2 :: g2t, rest3)
      | _, _ => none
    | _, _ => none
  | _ => none

/-- Fuelled scanner for `content.matchAll(regex)`: tries the regex at each
index left to right and resumes after each match (matches are at least five
characters long, so fuel `content.length` always suffices). -/
def scanFuel : Nat → List Char → Nat → List RawMatch
  | 0, _, _ => []
  | _ + 1, [], _ => []
  | fuel + 1, c :: cs, pos =>
    match matchAt (c :: cs) with
    | some (g1, g2, rest) =>
      ⟨pos, g1, g2⟩ :: scanFuel fuel rest (pos + (mkRaw g1 g2).length)
    | none => scanFuel fuel cs (pos + 1)

/-- All matches of the meta-action regex over the document, in scan order. -/
def scanMatches (doc : List Char) : List RawMatch :=
  scanFuel doc.length doc 0

/-- Builds the `MetaAction` pushed by the loop body of `parseMetaActions`:
both captured groups are trimmed, `raw` is the full matched text. -/
def toMetaAction (m : RawMatch) : MetaAction :=
  ⟨jsTrim m.g1, jsTrim m.g2, rawOf m⟩

/-- Model of `parseMetaActions` (main.ts lines 39-52). -/
def parseMetaActions (content : List Char) : List MetaAction :=
  (scanMatches content).map toMetaAction

/-- Index of the first occurrence of `pat` in a list (JS `String.indexOf`). -/
def firstOccur (pat : List Char) : List Char → Option Nat
  | [] => if pat.isPrefixOf ([] : List Char) then some 0 else none
  | c :: rest =>
    if pat.isPrefixOf (c :: rest) then some 0
    else (firstOccur pat rest).map (fun n => n + 1)

/-- The single-quote character (code point 39). -/
def squoteChar : Char :=
  Char.ofNat 39

/-- The backquote character (code point 96). -/
def backquoteChar : Char :=
  Char.ofNat 96

/-- `GetSubstitution` of ECMA-262 for a string search with no capture groups:
rewrites `$$`, `$&`, `$`-backquote and `$`-quote inside the replacement
string; every other `$` is literal.  `matched` is the matched text, `before`
and `after` the surrounding text. -/
def dollarSub (matched before after : List Char) : List Char → List Char
  | [] => []
  | '$' :: c :: rest =>
    if c = '$' then '$' :: dollarSub matched before after rest
    else if c = '&' then matched ++ dollarSub matched before after rest
    else if c = backquoteChar then before ++ dollarSub matched before after rest
    else if c = squoteChar then after ++ dollarSub matched before after rest
    else '$' :: dollarSub matched before after (c :: rest)
  | c :: rest => c :: dollarSub matched before after rest

/-- Model of `String.prototype.replace` with a string search value: replaces
the first occurrence of `pat`, applying `dollarSub` to the replacement. -/
def jsReplace (s pat rep : List Char) : List Char :=
  match firstOccur pat s with
  | none => s
  | some i =>
    s.take i ++ dollarSub pat (s.take i) (s.drop (i + pat.length)) rep ++
      s.drop (i + pat.length)

/-- The text evolution of the rewriter loop of `processMetaActionsInNote`
(main.ts lines 331-354): each step performs
`updated = updated.replace(action.raw, result)` on the working text, for a
given assignment of resolved result strings to the markers. -/
def applySequential : List Char → List (List Char × List Char) → List Char
  | w, [] => w
  | w, (pat, res) :: rest => applySequential (jsReplace w pat res) rest

/-- Modelled from the spec: "replacing every returned marker's `sourceSpan`
with its resolved content, in order, on the original document" — an
offset-based splice that substitutes each parsed match at the position where
it was found in the original document.  `base` is the absolute position of
the head of `d` in the original document. -/
def spliceSeq : List Char → Nat → List RawMatch → List (List Char) → List Char
  | d, _, [], _ => d
  | d, _, _ :: _, [] => d
  | d, base, m :: ms, r :: rs =>
    d.take (m.pos - base) ++ r ++
      spliceSeq (d.drop (m.pos - base + (rawOf m).length))
        (m.pos + (rawOf m).length) ms rs

/-- Holds when, at every step of the sequential rewriter, the first
occurrence of the marker's source span in the working text `acc ++ d` is the
residual original occurrence (at absolute position `m.pos`, i.e. at index
`acc.length + (m.pos - base)`).  `acc` is the already-rewritten prefix, `d`
the untouched suffix of the original document starting at position `base`. -/
def goodSteps : List Char → List Char → Nat → List RawMatch → List (List Char) → Bool
  | _, _, _, [], _ => true
  | _, _, _, _ :: _, [] => true
  | acc, d, base, m :: ms, r :: rs =>
    (firstOccur (rawOf m) (acc ++ d) == some (acc.length + (m.pos - base))) &&
      goodSteps (acc ++ d.take (m.pos - base) ++ r)
        (d.drop (m.pos - base + (rawOf m).length))
        (m.pos + (rawOf m).length) ms rs

/-- Observable effects of `processMetaActionsInNote`: a remote generation
request, a vault read of the note, a vault write of the note with the given
content, opening the API-key modal, and writing a generated asset file. -/
inductive Eff
  | net
  | read
  | write (content : List Char)
  | modal
  | saveAsset
deriving DecidableEq, Repr

/-- The action type the rewriter treats specially (image generation). -/
def imageActionLiteral : List Char :=
  strOf "이미지 생성"

/-- The rewriter loop of `processMetaActionsInNote` (main.ts lines 332-354).
Remote results are modelled by oracles: `resolve` maps a text action and the
text before its marker (from which the code derives the tone context) to the
returned generation text; `imgFor` maps an image action to the stored asset
path returned by `callGeminiImageSearch`.  Returns the final working text
and the effect trace of the loop. -/
def runLoop (resolve : MetaAction → List Char → List Char)
    (imgFor : MetaAction → List Char) :
    List Char → List MetaAction → List Char × List Eff
  | updated, [] => (updated, [])
  | updated, a :: rest =>
    if a.actionType = imageActionLiteral then
      let md := strOf "![" ++ a.instruction ++ strOf "](" ++ imgFor a ++ strOf ")"
      let next := runLoop resolve imgFor (jsReplace updated a.raw md) rest
      (next.1, Eff.net :: Eff.saveAsset :: next.2)
    else
      let before :=
        match firstOccur a.raw updated with
        | some i => updated.take i
        | none => updated
      let next := runLoop resolve imgFor (jsReplace updated a.raw (resolve a before)) rest
      (next.1, Eff.net :: next.2)

/-- Model of `processMetaActionsInNote` (main.ts lines 317-359): abort to the
API-key modal when the trimmed key is empty; read the note; return if no
markers parse; otherwise run the rewriter loop and write the note back only
when the final text differs from the original.  Returns the persisted note
content and the effect trace. -/
def processMetaActionsInNote (apiKey doc : List Char)
    (resolve : MetaAction → List Char → List Char)
    (imgFor : MetaAction → List Char) : List Char × List Eff :=
  if jsTrim apiKey = [] then (doc, [Eff.modal])
  else
    let actions := parseMetaActions doc
    if actions = [] then (doc, [Eff.read])
    else
      let res := runLoop resolve imgFor doc actions
      if res.1 ≠ doc then (res.1, Eff.read :: res.2 ++ [Eff.write res.1])
      else (doc, Eff.read :: res.2)

/-- An inline binary payload of the Gemini response envelope
(`inlineData`/`inline_data`); both fields are optional in the source type. -/
structure InlineBlob where
  data : Option (List Char)
  mimeType : Option (List Char)
deriving DecidableEq, Repr

/-- One part of the Gemini response envelope (type `GeminiResponse`). -/
structure RespPart where
  text : Option (List Char)
  inlineData : Option InlineBlob
  inline_data : Option InlineBlob
deriving DecidableEq, Repr

/-- JS truthiness of `p.inlineData?.data` style optional chains: the field
chain is defined and the string is nonempty. -/
def truthyData : Option InlineBlob → Bool
  | some b =>
    match b.data with
    | some s => s != []
    | none => false
  | none => false

/-- `parts.find((p) => p.inlineData?.data || p.inline_data?.data)`. -/
def findInlinePart (parts : List RespPart) : Option RespPart :=
  parts.find? (fun p => truthyData p.inlineData || truthyData p.inline_data)

/-- `inline?.inlineData?.data?.trim() ?? inline?.inline_data?.data?.trim() ?? ""`;
note that `??` falls through only on an absent field, never on an empty
string. -/
def extractBase64 (parts : List RespPart) : List Char :=
  match findInlinePart parts with
  | none => []
  | some p =>
    (((p.inlineData.bind (fun b => b.data)).map jsTrim).getD
      (((p.inline_data.bind (fun b => b.data)).map jsTrim).getD []))

/-- `inline?.inlineData?.mimeType?.trim() ?? inline?.inline_data?.mime_type?.trim()
?? "image/png"`. -/
def extractMime (parts : List RespPart) : List Char :=
  match findInlinePart parts with
  | none => strOf "image/png"
  | some p =>
    (((p.inlineData.bind (fun b => b.mimeType)).map jsTrim).getD
      (((p.inline_data.bind (fun b => b.mimeType)).map jsTrim).getD
        (strOf "image/png")))

/-- `parts[0]?.text?.trim() ?? ""`. -/
def firstPartText (parts : List RespPart) : List Char :=
  ((parts.head?.bind (fun p => p.text)).map jsTrim).getD []

/-- The error message thrown when no inline payload is extracted: the first
part's trimmed text, truncated to 180 characters, when nonempty. -/
def noImageMsg (parts : List RespPart) : List Char :=
  let t := firstPartText parts
  if t ≠ [] then strOf "No image data returned from Gemini. text=" ++ t.take 180
  else strOf "No image data returned from Gemini."

/-- The response handling of `callGeminiImageSearch` (main.ts lines 77-108):
either the thrown error message, or the accepted base64 payload and MIME
type passed on to `saveGeneratedImageToVault`. -/
def callGeminiImageSearch (parts : List RespPart) :
    Except (List Char) (List Char × List Char) :=
  let base64 := extractBase64 parts
  if base64 = [] then Except.error (noImageMsg parts)
  else Except.ok (base64, extractMime parts)

/-- Effect trace of the image path: the request always happens; the asset
file is written only when a payload was accepted. -/
def imageEffects (parts : List RespPart) : List Eff :=
  match callGeminiImageSearch parts with
  | Except.error _ => [Eff.net]
  | Except.ok _ => [Eff.net, Eff.saveAsset]

/-- Claim-side predicate: the part carries an inline payload (nonempty after
trimming) under either field-naming variant. -/
def hasInlinePayload (p : RespPart) : Bool :=
  (((p.inlineData.bind (fun b => b.data)).map jsTrim).getD [] != []) ||
    (((p.inline_data.bind (fun b => b.data)).map jsTrim).getD [] != [])

/-- The sentence-final punctuation class `[.!?。！？]` of the tone regexes. -/
def isTonePunct (c : Char) : Bool :=
  c == '.' || c == '!' || c == '?' || c == '。' || c == '！' || c == '？'

/-- Number of matches of `/요[.!?。！？]?/g` (count of `요` occurrences; the
optional punctuation never hides a following `요`). -/
def countYo : List Char → Nat
  | '요' :: p :: rest => if isTonePunct p then 1 + countYo rest else 1 + countYo (p :: rest)
  | '요' :: [] => 1
  | _ :: rest => countYo rest
  | [] => 0

/-- Number of matches of `/다[.!?。！？]?/g`. -/
def countPlain : List Char → Nat
  | '다' :: p :: rest => if isTonePunct p then 1 + countPlain rest else 1 + countPlain (p :: rest)
  | '다' :: [] => 1
  | _ :: rest => countPlain rest
  | [] => 0

/-- Number of matches of `/(습니다|니다)[.!?。！？]?/g`: at each position the
alternation tries `습니다` first, then `니다`; scanning resumes after the
match and the optional punctuation. -/
def countFormal : List Char → Nat
  | '습' :: '니' :: '다' :: p :: rest =>
    if isTonePunct p then 1 + countFormal rest else 1 + countFormal (p :: rest)
  | '습' :: '니' :: '다' :: [] => 1
  | '니' :: '다' :: p :: rest =>
    if isTonePunct p then 1 + countFormal rest else 1 + countFormal (p :: rest)
  | '니' :: '다' :: [] => 1
  | _ :: rest => countFormal rest
  | [] => 0

/-- Model of `inferToneProfile` (main.ts lines 222-233). -/
def inferToneProfile (toneContext : List Char) : List Char :=
  if toneContext = [] then strOf "참조 문맥 부족"
  else if countPlain toneContext < countYo toneContext then strOf "존댓말(~요) 중심"
  else if 0 < countFormal toneContext then strOf "격식 존댓말(~습니다/~니다) 중심"
  else if 0 < countPlain toneContext then strOf "평서체(~다) 중심"
  else strOf "참조 문맥 어투 최대한 모사"

/-- ASCII lowering of `String.prototype.toLowerCase` (the inputs compared by
`mimeTypeToExt` are all ASCII). -/
def jsToLower (l : List Char) : List Char :=
  l.map Char.toLower

/-- Model of `mimeTypeToExt` (main.ts lines 137-153): the switch over the
lower-cased MIME type; `image/png` falls through to the same `png` result as
the default branch. -/
def mimeTypeToExt (mimeType : List Char) : List Char :=
  let t := jsToLower mimeType
  if t = strOf "image/jpeg" then strOf "jpg"
  else if t = strOf "image/webp" then strOf "webp"
  else if t = strOf "image/gif" then strOf "gif"
  else if t = strOf "image/svg+xml" then strOf "svg"
  else if t = strOf "image/bmp" then strOf "bmp"
  else strOf "png"

/-- The case labels of the `mimeTypeToExt` switch, with their results. -/
def knownMimeTypes : List (List Char × List Char) :=
  [(strOf "image/jpeg", strOf "jpg"),
   (strOf "image/webp", strOf "webp"),
   (strOf "image/gif", strOf "gif"),
   (strOf "image/svg+xml", strOf "svg"),
   (strOf "image/bmp", strOf "bmp"),
   (strOf "image/png", strOf "png")]

/-- Length of the leading JS-whitespace run (the greedy `\s*`). -/
def wsRunLen (l : List Char) : Nat :=
  (l.takeWhile isJsWs).length

/-- ECMA-262 LineTerminator: LF, CR, LINE SEPARATOR, PARAGRAPH SEPARATOR.
This is the set excluded by `.`, and honored by the multiline `^` and `$`
assertions. -/
def isLineTerm (c : Char) : Bool :=
  c == '\n' || c == '\r' || c.toNat == 0x2028 || c.toNat == 0x2029

/-- The multiline `$` assertion at the position given by the remaining
text: end of input, or before a line terminator. -/
def dollarAt (l : List Char) : Bool :=
  match l with
  | [] => true
  | c :: _ => isLineTerm c

/-- Greedy backtracking of the trailing `\s*` before `$`: the largest
`k ≤ bound` such that `$` holds after consuming `k` characters of `l`
(tried longest first, as the regex engine does). -/
def maxDollarExt (l : List Char) : Nat → Nat
  | 0 => 0
  | k + 1 => if dollarAt (l.drop (k + 1)) then k + 1 else maxDollarExt l k

/-- Attempts the env regex `^\s*KEY\s*=\s*(.*)\s*$` (multiline) at a line
start, with exactly `a` characters consumed by the leading `\s*`.  `\s`
includes line terminators, so the leading `\s*` may consume whole blank
lines.  The `\s*` before `=` is forced (`=` is not whitespace); `(.*)` is
greedy and `.` excludes line terminators, so group 1 runs up to the next
line terminator; the trailing `\s*$` then extends the match over following
whitespace up to the last position that is the end of input or before a
line terminator.  Returns the match length and group 1. -/
def tryWithA (key s : List Char) (a : Nat) : Option (Nat × List Char) :=
  let s1 := s.drop a
  if key.isPrefixOf s1 then
    let s2 := s1.drop key.length
    let b := wsRunLen s2
    match s2.drop b with
    | '=' :: s3 =>
      let c := wsRunLen s3
      let g := (s3.drop c).takeWhile (fun ch => !isLineTerm ch)
      let tailAfter := (s3.drop c).drop g.length
      let k := maxDollarExt tailAfter (wsRunLen tailAfter)
      some (a + key.length + b + 1 + c + g.length + k, g)
    | _ => none
  else none

/-- Greedy backtracking of the leading `\s*`: the lengths `a, a-1, ..., 0`
are tried longest first; the first value whose continuation succeeds gives
the match. -/
def tryCandAux (key s : List Char) : Nat → Option (Nat × List Char)
  | 0 => tryWithA key s 0
  | a + 1 =>
    match tryWithA key s (a + 1) with
    | some r => some r
    | none => tryCandAux key s a

/-- Attempts the env regex at a line start: the leading `\s*` can consume
at most the whitespace run at the position. -/
def tryCandidate (key s : List Char) : Option (Nat × List Char) :=
  tryCandAux key s (wsRunLen s)

/-- Scans the text for the first position where the multiline `^` assertion
holds (start of input or after a line terminator) and `tryCandidate`
succeeds; returns the absolute match position, the match length and
group 1. -/
def findEnvMatchAux (key : List Char) :
    List Char → Bool → Nat → Option (Nat × Nat × List Char)
  | [], lineStart, pos =>
    if lineStart then (tryCandidate key []).map (fun r => (pos, r.1, r.2)) else none
  | c :: rest, lineStart, pos =>
    if lineStart then
      match tryCandidate key (c :: rest) with
      | some (len, g) => some (pos, len, g)
      | none => findEnvMatchAux key rest (isLineTerm c) (pos + 1)
    else findEnvMatchAux key rest (isLineTerm c) (pos + 1)

/-- First match of the env pattern for `key` in the whole text. -/
def findEnvMatch (key envText : List Char) : Option (Nat × Nat × List Char) :=
  findEnvMatchAux key envText true 0

/-- Strips one layer of matching surrounding quotes, as `readEnvValue` does
via `slice(1, -1)`. -/
def unquoteEnv (raw : List Char) : List Char :=
  if raw ≠ [] ∧
      ((raw.head? = some '"' ∧ raw.getLast? = some '"') ∨
        (raw.head? = some squoteChar ∧ raw.getLast? = some squoteChar)) then
    (raw.drop 1).dropLast
  else raw

/-- Model of `readEnvValue` (main.ts lines 438-452). -/
def readEnvValue (envText key : List Char) : Option (List Char) :=
  match findEnvMatch key envText with
  | none => none
  | some (_, _, g) => some (unquoteEnv (jsTrim g))

/-- Model of `writeEnvValue` (main.ts lines 454-469): empty or blank file is
replaced by `key=value` plus newline; an existing match is replaced via
`String.prototype.replace` (with `dollarSub` on the replacement); otherwise
the line is appended, adding a separating newline when the text does not end
with one. -/
def writeEnvValue (envText key value : List Char) : List Char :=
  let nextLine := key ++ '=' :: value
  if envText = [] ∨ jsTrim envText = [] then nextLine ++ ['\n']
  else
    match findEnvMatch key envText with
    | some (pos, len, _) =>
      envText.take pos ++
        dollarSub ((envText.drop pos).take len) (envText.take pos)
          (envText.drop (pos + len)) nextLine ++
        envText.drop (pos + len)
    | none =>
      envText ++ (if envText.getLast? = some '\n' then [] else ['\n']) ++
        nextLine ++ ['\n']

/-! General lemmas about the string model. -/

theorem jsTrim_nil : jsTrim [] = [] := rfl

theorem isPrefixOf_append_self (p t : List Char) : p.isPrefixOf (p ++ t) = true := by
  induction p with
  | nil => simp [List.isPrefixOf]
  | cons c cs ih => simp [List.isPrefixOf, ih]

theorem dollarSub_no_dollar (m b a : List Char) :
    ∀ rep : List Char, '$' ∉ rep → dollarSub m b a rep = rep
  | [], _ => rfl
  | [c], h => by
    have hc : c ≠ '$' := by intro he; exact h (he ▸ List.mem_singleton_self c)
    simp [dollarSub, hc]
  | c :: d :: rest, h => by
    have hc : c ≠ '$' := by intro he; subst he; exact h (List.mem_cons_self _ _)
    have hrest : '$' ∉ d :: rest := fun hm => h (List.mem_cons_of_mem _ hm)
    have ih := dollarSub_no_dollar m b a (d :: rest) hrest
    simp [dollarSub, hc, ih]

theorem firstOccur_some (pat : List Char) :
    ∀ l i, firstOccur pat l = some i →
      pat.isPrefixOf (l.drop i) = true ∧ ∀ j, j < i → pat.isPrefixOf (l.drop j) = false
  | [], i, h => by
    by_cases hp : pat.isPrefixOf ([] : List Char) = true
    · simp [firstOccur, hp] at h
      subst h
      exact ⟨hp, fun j hj => absurd hj (Nat.not_lt_zero j)⟩
    · simp [firstOccur, hp] at h
  | c :: rest, i, h => by
    by_cases hp : pat.isPrefixOf (c :: rest) = true
    · simp [firstOccur, hp] at h
      subst h
      exact ⟨hp, fun j hj => absurd hj (Nat.not_lt_zero j)⟩
    · simp [firstOccur, hp] at h
      obtain ⟨n, hn, hni⟩ := h
      subst hni
      obtain ⟨h1, h2⟩ := firstOccur_some pat rest n hn
      refine ⟨h1, fun j hj => ?_⟩
      cases j with
      | zero => simpa using Bool.eq_false_iff.mpr hp
      | succ k => exact h2 k (Nat.lt_of_succ_lt_succ hj)

theorem firstOccur_none (pat : List Char) :
    ∀ l, firstOccur pat l = none → ∀ j, pat.isPrefixOf (l.drop j) = false
  | [], h, j => by
    by_cases hp : pat.isPrefixOf ([] : List Char) = true
    · simp [firstOccur, hp] at h
    · simpa using Bool.eq_false_iff.mpr hp
  | c :: rest, h, j => by
    by_cases hp : pat.isPrefixOf (c :: rest) = true
    · simp [firstOccur, hp] at h
    · simp [firstOccur, hp] at h
      cases j with
      | zero => simpa using Bool.eq_false_iff.mpr hp
      | succ k => exact firstOccur_none pat rest h k

/-- The replacement step at a known first occurrence, for a dollar-free
replacement string. -/
theorem jsReplace_at (P pat T r : List Char)
    (h : firstOccur pat (P ++ pat ++ T) = some P.length) (hr : '$' ∉ r) :
    jsReplace (P ++ pat ++ T) pat r = P ++ r ++ T := by
  unfold jsReplace
  rw [h]
  dsimp only
  have h1 : (P ++ pat ++ T).take P.length = P := by
    rw [List.append_assoc]
    exact List.take_left P (pat ++ T)
  have h2 : (P ++ pat ++ T).drop (P.length + pat.length) = T :=
    List.drop_left' (by simp)
  rw [h1, h2, dollarSub_no_dollar _ _ _ r hr]

/-- C2 counterexample: the replacement step does not substitute the result
string literally.  For the marker `@(a)[b]` and resolved result `$&$&`, JS
`replace` rewrites each `$&` to the matched span, so the step yields
`@(a)[b]@(a)[b]` instead of the claimed literal `$&$&`. -/
theorem jsReplace_dollar_cex :
    parseMetaActions (strOf "@(a)[b]") =
      [⟨strOf "a", strOf "b", strOf "@(a)[b]"⟩] ∧
    jsReplace (strOf "@(a)[b]") (strOf "@(a)[b]") (strOf "$&$&") =
      strOf "@(a)[b]@(a)[b]" ∧
    jsReplace (strOf "@(a)[b]") (strOf "@(a)[b]") (strOf "$&$&") ≠
      strOf "$&$&" := by
  refine ⟨by decide, by decide, by decide⟩

/-- C2 amended: when the resolved result contains no dollar character, the
rewriter step `updated.replace(action.raw, result)` replaces exactly the
first occurrence of the span with exactly the result string, leaving every
other character unchanged; when the span does not occur the text is
unchanged. -/
theorem jsReplace_literal_subst (w pat r : List Char) (hr : '$' ∉ r) :
    (∀ i, firstOccur pat w = some i →
      pat.isPrefixOf (w.drop i) = true ∧
      (∀ j, j < i → pat.isPrefixOf (w.drop j) = false) ∧
      jsReplace w pat r = w.take i ++ r ++ w.drop (i + pat.length)) ∧
    (firstOccur pat w = none →
      (∀ j, pat.isPrefixOf (w.drop j) = false) ∧ jsReplace w pat r = w) := by
  constructor
  · intro i h
    obtain ⟨h1, h2⟩ := firstOccur_some pat w i h
    refine ⟨h1, h2, ?_⟩
    unfold jsReplace
    rw [h]
    dsimp only
    rw [dollarSub_no_dollar _ _ _ r hr]
  · intro h
    refine ⟨firstOccur_none pat w h, ?_⟩
    unfold jsReplace
    rw [h]

/-- Witness for the amended C2 theorem at a concrete input. -/
theorem jsReplace_literal_subst_witness :
    jsReplace (strOf "x@(a)[b]y") (strOf "@(a)[b]") (strOf "R") =
      strOf "xRy" := by
  have h :=
    ((jsReplace_literal_subst (strOf "x@(a)[b]y") (strOf "@(a)[b]") (strOf "R")
      (by decide)).1 1 (by decide)).2.2
  exact h.trans (by decide)

/-- C5: with no configured key (absent or blank after trimming) the
processing operation opens the API-key modal and nothing else: no network
call, no read, no write; processing aborts at once. -/
theorem processNote_missing_key (apiKey doc : List Char)
    (resolve : MetaAction → List Char → List Char)
    (imgFor : MetaAction → List Char) (h : jsTrim apiKey = []) :
    processMetaActionsInNote apiKey doc resolve imgFor = (doc, [Eff.modal]) ∧
    Eff.net ∉ (processMetaActionsInNote apiKey doc resolve imgFor).2 ∧
    Eff.read ∉ (processMetaActionsInNote apiKey doc resolve imgFor).2 ∧
    (∀ u, Eff.write u ∉ (processMetaActionsInNote apiKey doc resolve imgFor).2) ∧
    Eff.modal ∈ (processMetaActionsInNote apiKey doc resolve imgFor).2 := by
  have he : processMetaActionsInNote apiKey doc resolve imgFor = (doc, [Eff.modal]) := by
    unfold processMetaActionsInNote
    rw [if_pos h]
  refine ⟨he, ?_, ?_, ?_, ?_⟩ <;> rw [he] <;> simp

/-- Witness for C5 at a blank key. -/
theorem processNote_missing_key_witness :
    processMetaActionsInNote (strOf "  ") (strOf "x@(a)[b]y")
      (fun _ _ => strOf "R") (fun _ => strOf "p") =
      (strOf "x@(a)[b]y", [Eff.modal]) :=
  (processNote_missing_key (strOf "  ") (strOf "x@(a)[b]y")
    (fun _ _ => strOf "R") (fun _ => strOf "p") (by decide)).1

/-- The rewriter loop itself only performs network requests and asset
writes; it never writes the note. -/
theorem runLoop_no_write (resolve : MetaAction → List Char → List Char)
    (imgFor : MetaAction → List Char) :
    ∀ (as : List MetaAction) (updated u : List Char),
      Eff.write u ∉ (runLoop resolve imgFor updated as).2 := by
  intro as
  induction as with
  | nil => intro updated u; simp [runLoop]
  | cons a rest ih =>
    intro updated u
    by_cases hA : a.actionType = imageActionLiteral
    · simp only [runLoop, if_pos hA, List.mem_cons]
      intro hmem
      rcases hmem with h | h | h
      · cases h
      · cases h
      · exact ih _ u h
    · simp only [runLoop, if_neg hA, List.mem_cons]
      intro hmem
      rcases hmem with h | h
      · cases h
      · exact ih _ u h

/-- C4: a document with zero markers is processed without any network
request and without any write of the document; and in general the document
is written back only when the final working text differs from the original,
so a no-op save never occurs. -/
theorem processNote_no_markers_frame (apiKey doc : List Char)
    (resolve : MetaAction → List Char → List Char)
    (imgFor : MetaAction → List Char) :
    (parseMetaActions doc = [] →
      Eff.net ∉ (processMetaActionsInNote apiKey doc resolve imgFor).2 ∧
      ∀ u, Eff.write u ∉ (processMetaActionsInNote apiKey doc resolve imgFor).2) ∧
    (∀ u, Eff.write u ∈ (processMetaActionsInNote apiKey doc resolve imgFor).2 →
      u ≠ doc ∧ u = (processMetaActionsInNote apiKey doc resolve imgFor).1) := by
  by_cases hk : jsTrim apiKey = []
  · have he : processMetaActionsInNote apiKey doc resolve imgFor = (doc, [Eff.modal]) := by
      unfold processMetaActionsInNote
      rw [if_pos hk]
    rw [he]
    refine ⟨fun _ => ⟨by simp, fun u => by simp⟩, fun u hu => ?_⟩
    simp at hu
  · by_cases hp : parseMetaActions doc = []
    · have he : processMetaActionsInNote apiKey doc resolve imgFor = (doc, [Eff.read]) := by
        unfold processMetaActionsInNote
        rw [if_neg hk]
        simp [hp]
      rw [he]
      refine ⟨fun _ => ⟨by simp, fun u => by simp⟩, fun u hu => ?_⟩
      simp at hu
    · by_cases hch : (runLoop resolve imgFor doc (parseMetaActions doc)).1 ≠ doc
      · have he : processMetaActionsInNote apiKey doc resolve imgFor =
            ((runLoop resolve imgFor doc (parseMetaActions doc)).1,
              Eff.read :: (runLoop resolve imgFor doc (parseMetaActions doc)).2 ++
                [Eff.write (runLoop resolve imgFor doc (parseMetaActions doc)).1]) := by
          unfold processMetaActionsInNote
          rw [if_neg hk]
          simp only [if_neg hp, if_pos hch]
        rw [he]
        refine ⟨fun hzero => absurd hzero hp, fun u hu => ?_⟩
        rcases List.mem_cons.mp hu with h | hu2
        · exact Eff.noConfusion h
        rcases List.mem_append.mp hu2 with h | h
        · exact absurd h (runLoop_no_write resolve imgFor (parseMetaActions doc) doc u)
        · have heq : Eff.write u =
              Eff.write (runLoop resolve imgFor doc (parseMetaActions doc)).1 :=
            List.mem_singleton.mp h
          injection heq with hui
          subst hui
          exact ⟨hch, rfl⟩
      · push_neg at hch
        have he : processMetaActionsInNote apiKey doc resolve imgFor =
            (doc, Eff.read :: (runLoop resolve imgFor doc (parseMetaActions doc)).2) := by
          unfold processMetaActionsInNote
          rw [if_neg hk]
          simp only [if_neg hp]
          rw [if_neg (by simpa using hch)]
        rw [he]
        refine ⟨fun hzero => absurd hzero hp, fun u hu => ?_⟩
        rcases List.mem_cons.mp hu with h | h
        · exact Eff.noConfusion h
        · exact absurd h (runLoop_no_write resolve imgFor (parseMetaActions doc) doc u)

/-- Witness for C4: a marker-free document is only read. -/
theorem processNote_no_markers_frame_witness :
    Eff.net ∉ (processMetaActionsInNote (strOf "key") (strOf "no markers here")
      (fun _ _ => strOf "R") (fun _ => strOf "p")).2 ∧
    ∀ u, Eff.write u ∉ (processMetaActionsInNote (strOf "key") (strOf "no markers here")
      (fun _ _ => strOf "R") (fun _ => strOf "p")).2 :=
  (processNote_no_markers_frame (strOf "key") (strOf "no markers here")
    (fun _ _ => strOf "R") (fun _ => strOf "p")).1 (by decide)

/-- C8 counterexample: the lookup table of the `mimeTypeToExt` switch has
six known MIME types (image/jpeg, image/webp, image/gif, image/svg+xml,
image/bmp, image/png), not seven. -/
theorem mimeTable_count_cex :
    knownMimeTypes.length = 6 ∧ (6 : Nat) ≠ 7 ∧
    (knownMimeTypes.map Prod.fst).Nodup ∧
    (∀ kv, kv ∈ knownMimeTypes → mimeTypeToExt kv.1 = kv.2) := by
  refine ⟨rfl, by decide, by decide, by decide⟩

/-- C8 amended: `mimeTypeToExt` is the lookup over the fixed six-entry
table of known MIME types (case-insensitively), defaulting to `png` for any
unrecognized type; in particular `image/jpeg` maps to `jpg` and an unknown
type maps to `png`. -/
theorem mimeTypeToExt_table :
    (∀ s : List Char,
      mimeTypeToExt s = ((knownMimeTypes.lookup (jsToLower s)).getD (strOf "png"))) ∧
    mimeTypeToExt (strOf "image/jpeg") = strOf "jpg" ∧
    mimeTypeToExt (strOf "IMAGE/JPEG") = strOf "jpg" ∧
    mimeTypeToExt (strOf "image/avif") = strOf "png" ∧
    mimeTypeToExt (strOf "image/png") = strOf "png" := by
  refine ⟨?_, by decide, by decide, by decide, by decide⟩
  intro s
  simp only [mimeTypeToExt]
  by_cases h1 : jsToLower s = strOf "image/jpeg"
  · rw [h1]; decide
  by_cases h2 : jsToLower s = strOf "image/webp"
  · rw [h2]; decide
  by_cases h3 : jsToLower s = strOf "image/gif"
  · rw [h3]; decide
  by_cases h4 : jsToLower s = strOf "image/svg+xml"
  · rw [h4]; decide
  by_cases h5 : jsToLower s = strOf "image/bmp"
  · rw [h5]; decide
  by_cases h6 : jsToLower s = strOf "image/png"
  · rw [h6]; decide
  · have b1 : (jsToLower s == strOf "image/jpeg") = false := beq_eq_false_iff_ne.mpr h1
    have b2 : (jsToLower s == strOf "image/webp") = false := beq_eq_false_iff_ne.mpr h2
    have b3 : (jsToLower s == strOf "image/gif") = false := beq_eq_false_iff_ne.mpr h3
    have b4 : (jsToLower s == strOf "image/svg+xml") = false := beq_eq_false_iff_ne.mpr h4
    have b5 : (jsToLower s == strOf "image/bmp") = false := beq_eq_false_iff_ne.mpr h5
    have b6 : (jsToLower s == strOf "image/png") = false := beq_eq_false_iff_ne.mpr h6
    simp [knownMimeTypes, List.lookup, h1, h2, h3, h4, h5, b1, b2, b3, b4, b5, b6]

/-- A text containing the plain-ending character has a positive plain count. -/
theorem countPlain_pos : ∀ l : List Char, '다' ∈ l → 0 < countPlain l := by
  intro l
  induction l with
  | nil => intro h; cases h
  | cons c rest ih =>
    intro h
    rw [countPlain.eq_def]
    split
    · split <;> omega
    · omega
    · rename_i z hd x heq hne1 hne2
      injection hne2 with hc hr
      subst hr
      rw [← hc] at heq hne1
      have hcd : c ≠ '다' := by
        intro he
        cases rest with
        | nil => exact hne1 he rfl
        | cons p r => exact heq p r he rfl
      have hm : '다' ∈ rest := by
        rcases List.mem_cons.mp h with h0 | h0
        · exact absurd h0.symm hcd
        · exact h0
      exact ih hm
    · rename_i z heq
      exact absurd heq (List.cons_ne_nil c rest)


/-- C7 counterexample: the input `공부했다 정말 좋아요.` ends with
`...정말 좋아요.` and has no formal endings, yet the classifier returns the
plain/declarative category, because its plain count (1) is not smaller than
its casual-polite count (1). -/
theorem inferTone_ending_cex :
    strOf "공부했다 정말 좋아요." = strOf "공부했다 " ++ strOf "정말 좋아요." ∧
    countFormal (strOf "공부했다 정말 좋아요.") = 0 ∧
    inferToneProfile (strOf "공부했다 정말 좋아요.") = strOf "평서체(~다) 중심" ∧
    inferToneProfile (strOf "공부했다 정말 좋아요.") ≠ strOf "존댓말(~요) 중심" := by
  refine ⟨by decide, by decide, by decide, by decide⟩


/-- C7 amended: the classifier is total and follows the priority order
(casual-polite when the casual count exceeds the plain count, else formal
when present, else plain when present, else the generic fallback), returns
the insufficient-context descriptor exactly on empty input; an input ending
in `...완료했다.` with no `요` endings and no formal endings classifies as
plain/declarative, and the inputs `정말 좋아요.` and `완료했다.` classify as
casual-polite and plain respectively. -/
theorem inferTone_priority : ∀ t : List Char,
    (t = [] → inferToneProfile t = strOf "참조 문맥 부족") ∧
    (t ≠ [] → countPlain t < countYo t →
      inferToneProfile t = strOf "존댓말(~요) 중심") ∧
    (t ≠ [] → ¬ countPlain t < countYo t → 0 < countFormal t →
      inferToneProfile t = strOf "격식 존댓말(~습니다/~니다) 중심") ∧
    (t ≠ [] → ¬ countPlain t < countYo t → countFormal t = 0 → 0 < countPlain t →
      inferToneProfile t = strOf "평서체(~다) 중심") ∧
    (t ≠ [] → ¬ countPlain t < countYo t → countFormal t = 0 → countPlain t = 0 →
      inferToneProfile t = strOf "참조 문맥 어투 최대한 모사") ∧
    (∀ pre, countYo (pre ++ strOf "완료했다.") = 0 →
      countFormal (pre ++ strOf "완료했다.") = 0 →
      inferToneProfile (pre ++ strOf "완료했다.") = strOf "평서체(~다) 중심") ∧
    inferToneProfile (strOf "정말 좋아요.") = strOf "존댓말(~요) 중심" ∧
    inferToneProfile (strOf "완료했다.") = strOf "평서체(~다) 중심" := by
  intro t
  refine ⟨?_, ?_, ?_, ?_, ?_, ?_, by decide, by decide⟩
  · intro h; simp [inferToneProfile, h]
  · intro h1 h2; simp [inferToneProfile, h1, h2]
  · intro h1 h2 h3; simp [inferToneProfile, h1, h2, h3]
  · intro h1 h2 h3 h4; simp [inferToneProfile, h1, h2, h3, h4]
  · intro h1 h2 h3 h4
    have h5 : countYo t = 0 := by omega
    simp [inferToneProfile, h1, h2, h3, h4, h5]
  · intro pre h1 h2
    have hmem : '다' ∈ pre ++ strOf "완료했다." :=
      List.mem_append_right pre (by decide)
    have hne : pre ++ strOf "완료했다." ≠ [] := by
      intro he
      have := congrArg List.length he
      simp [strOf] at this
    have hplain : 0 < countPlain (pre ++ strOf "완료했다.") := countPlain_pos _ hmem
    have hnlt : ¬ countPlain (pre ++ strOf "완료했다.") < countYo (pre ++ strOf "완료했다.") := by
      rw [h1]; exact Nat.not_lt_zero _
    simp [inferToneProfile, hne, hnlt, h2, hplain]

/-- Witness for the amended C7 theorem at a formal-ending input. -/
theorem inferTone_priority_witness :
    inferToneProfile (strOf "그렇게 했습니다.") =
      strOf "격식 존댓말(~습니다/~니다) 중심" :=
  ((inferTone_priority (strOf "그렇게 했습니다.")).2.2.1)
    (by decide) (by decide) (by decide)

/-- A string with a nonempty trim is nonempty. -/
theorem jsTrim_ne_nil_imp {d : List Char} (h : jsTrim d ≠ []) : d ≠ [] := by
  intro he
  subst he
  exact h jsTrim_nil

/-- C6 counterexample: an envelope whose first data-bearing part has
whitespace-only camelCase data followed by a part with a real payload is
rejected with the generic error, although an inline payload is present:
`find` selects the first truthy part and the `??` chain does not fall
through on an empty trimmed string. -/
theorem imageSearch_payload_cex :
    List.any [RespPart.mk none (some ⟨some (strOf " "), none⟩) none,
              RespPart.mk none (some ⟨some (strOf "abc"), some (strOf "image/png")⟩) none]
      hasInlinePayload = true ∧
    callGeminiImageSearch
      [RespPart.mk none (some ⟨some (strOf " "), none⟩) none,
       RespPart.mk none (some ⟨some (strOf "abc"), some (strOf "image/png")⟩) none] =
      Except.error (strOf "No image data returned from Gemini.") ∧
    Eff.saveAsset ∉ imageEffects
      [RespPart.mk none (some ⟨some (strOf " "), none⟩) none,
       RespPart.mk none (some ⟨some (strOf "abc"), some (strOf "image/png")⟩) none] := by
  refine ⟨by decide, by rfl, by decide⟩

/-- C6 amended: when the extracted payload (first part with a truthy data
field; camelCase variant preferred, trimmed) is empty, the image operation
raises the error whose message appends the first part's trimmed text
truncated to 180 characters (bounded length), and no asset write occurs;
when the extraction is nonempty the payload is accepted, in particular a
nonempty trimmed payload carried by the head part under either the
camelCase or the snake_case field naming is accepted. -/
theorem imageSearch_spec : ∀ parts : List RespPart,
    (extractBase64 parts = [] →
      callGeminiImageSearch parts = Except.error (noImageMsg parts) ∧
      (noImageMsg parts).length ≤
        (strOf "No image data returned from Gemini. text=").length + 180 ∧
      Eff.saveAsset ∉ imageEffects parts) ∧
    (extractBase64 parts ≠ [] →
      callGeminiImageSearch parts =
        Except.ok (extractBase64 parts, extractMime parts) ∧
      Eff.saveAsset ∈ imageEffects parts) ∧
    (∀ t mt sd rest d, jsTrim d ≠ [] →
      callGeminiImageSearch (RespPart.mk t (some ⟨some d, mt⟩) sd :: rest) =
        Except.ok (jsTrim d, extractMime (RespPart.mk t (some ⟨some d, mt⟩) sd :: rest))) ∧
    (∀ t mt rest d, jsTrim d ≠ [] →
      callGeminiImageSearch (RespPart.mk t none (some ⟨some d, mt⟩) :: rest) =
        Except.ok (jsTrim d, extractMime (RespPart.mk t none (some ⟨some d, mt⟩) :: rest))) := by
  intro parts
  refine ⟨?_, ?_, ?_, ?_⟩
  · intro h
    have herr : callGeminiImageSearch parts = Except.error (noImageMsg parts) := by
      simp [callGeminiImageSearch, h]
    refine ⟨herr, ?_, ?_⟩
    · by_cases ht : firstPartText parts = []
      · simp [noImageMsg, ht]
        decide
      · simp only [noImageMsg, if_pos ht, List.length_append, List.length_take]
        have := min_le_left 180 (firstPartText parts).length
        omega
    · simp [imageEffects, herr]
  · intro h
    have hok : callGeminiImageSearch parts =
        Except.ok (extractBase64 parts, extractMime parts) := by
      simp [callGeminiImageSearch, h]
    exact ⟨hok, by simp [imageEffects, hok]⟩
  · intro t mt sd rest d hd
    have hdne : d ≠ [] := jsTrim_ne_nil_imp hd
    have htr : truthyData (some ⟨some d, mt⟩) = true := by
      simp [truthyData]
      exact hdne
    have hext : extractBase64 (RespPart.mk t (some ⟨some d, mt⟩) sd :: rest) = jsTrim d := by
      simp [extractBase64, findInlinePart, List.find?_cons, htr]
    simp [callGeminiImageSearch, hext, hd]
  · intro t mt rest d hd
    have hdne : d ≠ [] := jsTrim_ne_nil_imp hd
    have hext : extractBase64 (RespPart.mk t none (some ⟨some d, mt⟩) :: rest) = jsTrim d := by
      simp [extractBase64, findInlinePart, List.find?_cons, truthyData, hdne]
    simp [callGeminiImageSearch, hext, hd]

/-- Witness for the amended C6 theorem: a snake_case payload is accepted. -/
theorem imageSearch_spec_witness :
    callGeminiImageSearch
      [RespPart.mk none none (some ⟨some (strOf " xyz "), some (strOf "image/jpeg")⟩)] =
      Except.ok (strOf "xyz", strOf "image/jpeg") := by
  have h := ((imageSearch_spec
    [RespPart.mk none none (some ⟨some (strOf " xyz "), some (strOf "image/jpeg")⟩)]).2.2.2)
    none (some (strOf "image/jpeg")) [] (strOf " xyz ") (by decide)
  exact h.trans (by rfl)

/-- Decomposition invariant of the scanner: every listed match occurs at its
recorded absolute position, and matches are consecutive and disjoint. -/
def decompFrom : List Char → Nat → List RawMatch → Prop
  | _, _, [] => True
  | l, pos, m :: ms =>
    ∃ gap tail, l = gap ++ rawOf m ++ tail ∧ pos + gap.length = m.pos ∧
      decompFrom tail (m.pos + (rawOf m).length) ms

/-- Soundness of a single regex match: the input splits as the matched
marker text followed by the rest, and both groups are nonempty runs of
characters excluding their closing delimiter. -/
theorem matchAt_sound : ∀ l g1 g2 rest, matchAt l = some (g1, g2, rest) →
    l = mkRaw g1 g2 ++ rest ∧ g1 ≠ [] ∧ g2 ≠ [] ∧
    (∀ c ∈ g1, c ≠ ')') ∧ (∀ c ∈ g2, c ≠ ']') := by
  intro l g1 g2 rest h
  unfold matchAt at h
  split at h
  · rename_i restl
    split at h
    · exact absurd h (by simp)
    · rename_i c1 g1t rest2 heq1 heq2
      split at h
      · exact absurd h (by simp)
      · rename_i c2 g2t rest3 heq3 heq4
        injection h with h5
        injection h5 with hg1 h6
        injection h6 with hg2 hrest
        subst hg1
        subst hg2
        subst hrest
        have hr1 : restl = (c1 :: g1t) ++ ')' :: '[' :: rest2 := by
          conv_lhs => rw [← List.takeWhile_append_dropWhile
            (fun c => c != ')') restl]
          rw [heq1, heq2]
        have hr2 : rest2 = (c2 :: g2t) ++ ']' :: rest3 := by
          conv_lhs => rw [← List.takeWhile_append_dropWhile
            (fun c => c != ']') rest2]
          rw [heq3, heq4]
        refine ⟨?_, by simp, by simp, ?_, ?_⟩
        · rw [hr1, hr2]
          simp [mkRaw]
        · intro c hc
          have := List.mem_takeWhile_imp (heq1 ▸ hc)
          simpa using this
        · intro c hc
          have := List.mem_takeWhile_imp (heq3 ▸ hc)
          simpa using this
      · exact absurd h (by simp)
    · exact absurd h (by simp)
  · exact absurd h (by simp)

/-- Skipping one character extends the gap of a decomposition. -/
theorem decompFrom_cons_gap (c : Char) (l : List Char) (pos : Nat)
    (ms : List RawMatch) (h : decompFrom l (pos + 1) ms) :
    decompFrom (c :: l) pos ms := by
  cases ms with
  | nil => trivial
  | cons m ms' =>
    obtain ⟨gap, tail, h1, h2, h3⟩ := h
    refine ⟨c :: gap, tail, by simp [h1], ?_, h3⟩
    simp only [List.length_cons]
    omega

/-- Length of a matched marker text. -/
theorem mkRaw_length (g1 g2 : List Char) :
    (mkRaw g1 g2).length = g1.length + g2.length + 5 := by
  simp [mkRaw]
  omega

/-- The scanner output decomposes the text whenever the fuel is adequate. -/
theorem scanFuel_decomp : ∀ fuel l pos, l.length ≤ fuel →
    decompFrom l pos (scanFuel fuel l pos) := by
  intro fuel
  induction fuel with
  | zero => intro l pos _; simp [scanFuel, decompFrom]
  | succ fuel ih =>
    intro l pos hlen
    cases l with
    | nil => simp [scanFuel, decompFrom]
    | cons c cs =>
      cases hm : matchAt (c :: cs) with
      | some g =>
        obtain ⟨g1, g2, rest⟩ := g
        obtain ⟨hdec, _, _, _, _⟩ := matchAt_sound _ _ _ _ hm
        have hlr : rest.length ≤ fuel := by
          have hlen2 := congrArg List.length hdec
          simp only [List.length_cons, List.length_append, mkRaw_length] at hlen2
          simp only [List.length_cons] at hlen
          omega
        simp only [scanFuel, hm]
        refine ⟨[], rest, by simpa [rawOf] using hdec, by simp, ?_⟩
        exact ih rest (pos + (mkRaw g1 g2).length) hlr
      | none =>
        simp only [scanFuel, hm]
        refine decompFrom_cons_gap c cs pos _ (ih cs (pos + 1) ?_)
        simp only [List.length_cons] at hlen
        omega

/-- All matches of a decomposition start at or after the base position. -/
theorem decompFrom_pos : ∀ (ms : List RawMatch) (l : List Char) (pos : Nat),
    decompFrom l pos ms → ∀ m ∈ ms, pos ≤ m.pos := by
  intro ms
  induction ms with
  | nil => intro l pos _ m hm; cases hm
  | cons m0 ms' ih =>
    intro l pos h m hm
    obtain ⟨gap, tail, _, h2, h3⟩ := h
    rcases List.mem_cons.mp hm with h0 | h0
    · subst h0; omega
    · have := ih tail (m0.pos + (rawOf m0).length) h3 m h0
      omega

/-- Matches of a decomposition are ordered left to right without overlap. -/
theorem decompFrom_chain : ∀ (ms : List RawMatch) (l : List Char) (pos : Nat),
    decompFrom l pos ms →
    List.Chain' (fun a b => a.pos + (rawOf a).length ≤ b.pos) ms := by
  intro ms
  induction ms with
  | nil => intro l pos _; simp
  | cons m0 ms' ih =>
    intro l pos h
    obtain ⟨gap, tail, _, _, h3⟩ := h
    refine List.chain'_cons'.mpr ⟨?_, ih tail _ h3⟩
    intro y hy
    exact decompFrom_pos ms' tail _ h3 y (List.mem_of_mem_head? hy)

/-- Every match of a decomposition is an exact substring at its position. -/
theorem decompFrom_substring : ∀ (ms : List RawMatch) (l : List Char) (pos : Nat),
    decompFrom l pos ms → ∀ m ∈ ms,
    ∃ pre post, l = pre ++ rawOf m ++ post ∧ pos + pre.length = m.pos := by
  intro ms
  induction ms with
  | nil => intro l pos _ m hm; cases hm
  | cons m0 ms' ih =>
    intro l pos h m hm
    obtain ⟨gap, tail, h1, h2, h3⟩ := h
    rcases List.mem_cons.mp hm with h0 | h0
    · subst h0
      exact ⟨gap, tail, h1, h2⟩
    · obtain ⟨pre, post, h4, h5⟩ := ih tail (m0.pos + (rawOf m0).length) h3 m h0
      refine ⟨gap ++ rawOf m0 ++ pre, post, ?_, ?_⟩
      · rw [h1, h4]
        simp
      · simp only [List.length_append]
        omega

/-- C1: `parseMetaActions` returns the trimmed actions of the regex matches
in left-to-right document order; the matched spans are non-overlapping
(each match ends at or before the next match's start), each returned `raw`
is an exact substring of the document at the match position, and the
`actionType`/`instruction` fields are the two bracket groups with
whitespace trimmed from both edges. -/
theorem parseMetaActions_ordered_exact : ∀ doc : List Char,
    parseMetaActions doc = (scanMatches doc).map toMetaAction ∧
    List.Chain' (fun a b => a.pos + (rawOf a).length ≤ b.pos) (scanMatches doc) ∧
    (∀ m ∈ scanMatches doc, ∃ pre post,
      doc = pre ++ rawOf m ++ post ∧ pre.length = m.pos) ∧
    (∀ a ∈ parseMetaActions doc,
      (∃ pre post, doc = pre ++ a.raw ++ post) ∧
      ∃ g1 g2, a.raw = mkRaw g1 g2 ∧
        a.actionType = jsTrim g1 ∧ a.instruction = jsTrim g2) := by
  intro doc
  have hd : decompFrom doc 0 (scanMatches doc) :=
    scanFuel_decomp doc.length doc 0 le_rfl
  refine ⟨rfl, decompFrom_chain _ _ _ hd, ?_, ?_⟩
  · intro m hm
    obtain ⟨pre, post, h1, h2⟩ := decompFrom_substring _ _ _ hd m hm
    exact ⟨pre, post, h1, by omega⟩
  · intro a ha
    obtain ⟨m, hm, rfl⟩ := List.mem_map.mp ha
    obtain ⟨pre, post, h1, _⟩ := decompFrom_substring _ _ _ hd m hm
    exact ⟨⟨pre, post, h1⟩, m.g1, m.g2, rfl, rfl, rfl⟩

/-- Witness for C1 at a concrete document. -/
theorem parseMetaActions_ordered_exact_witness :
    (∃ pre post, strOf "x@(a)[ b ]y" = pre ++ (strOf "@(a)[ b ]") ++ post) ∧
    ∃ g1 g2, strOf "@(a)[ b ]" = mkRaw g1 g2 ∧
      strOf "a" = jsTrim g1 ∧ strOf "b" = jsTrim g2 :=
  (parseMetaActions_ordered_exact (strOf "x@(a)[ b ]y")).2.2.2
    ⟨strOf "a", strOf "b", strOf "@(a)[ b ]"⟩ (by decide)

/-- Group shape facts for every match produced by the scanner. -/
theorem scanFuel_groups : ∀ fuel l pos, ∀ m ∈ scanFuel fuel l pos,
    m.g1 ≠ [] ∧ m.g2 ≠ [] ∧ (∀ c ∈ m.g1, c ≠ ')') ∧ (∀ c ∈ m.g2, c ≠ ']') := by
  intro fuel
  induction fuel with
  | zero => intro l pos m hm; simp [scanFuel] at hm
  | succ fuel ih =>
    intro l pos m hm
    cases l with
    | nil => simp [scanFuel] at hm
    | cons c cs =>
      cases hg : matchAt (c :: cs) with
      | some g =>
        obtain ⟨g1, g2, rest⟩ := g
        simp only [scanFuel, hg] at hm
        rcases List.mem_cons.mp hm with h0 | h0
        · obtain ⟨_, hg1, hg2, hc1, hc2⟩ := matchAt_sound _ _ _ _ hg
          subst h0
          exact ⟨hg1, hg2, hc1, hc2⟩
        · exact ih rest _ m h0
      | none =>
        simp only [scanFuel, hg] at hm
        exact ih cs _ m hm

/-- C10: every parsed action satisfies the reconstruction invariant
`raw = "@(" ++ A ++ ")[" ++ B ++ "]"` with `A` nonempty without `)` and `B`
nonempty without `]`, `trim A = actionType` and `trim B = instruction`;
markers with empty bracket contents (`@()[x]`, `@(x)[]`) are never
matched. -/
theorem parseMetaActions_raw_invariant :
    (∀ doc a, a ∈ parseMetaActions doc →
      ∃ A B, A ≠ [] ∧ B ≠ [] ∧ (∀ c ∈ A, c ≠ ')') ∧ (∀ c ∈ B, c ≠ ']') ∧
        a.raw = strOf "@(" ++ A ++ strOf ")[" ++ B ++ strOf "]" ∧
        a.actionType = jsTrim A ∧ a.instruction = jsTrim B) ∧
    parseMetaActions (strOf "@()[x]") = [] ∧
    parseMetaActions (strOf "@(x)[]") = [] := by
  refine ⟨?_, by decide, by decide⟩
  intro doc a ha
  obtain ⟨m, hm, rfl⟩ := List.mem_map.mp ha
  obtain ⟨hg1, hg2, hc1, hc2⟩ := scanFuel_groups doc.length doc 0 m hm
  refine ⟨m.g1, m.g2, hg1, hg2, hc1, hc2, ?_, rfl, rfl⟩
  show rawOf m = strOf "@(" ++ m.g1 ++ strOf ")[" ++ m.g2 ++ strOf "]"
  simp [rawOf, mkRaw, strOf]

/-- Witness for C10 at a concrete whitespace-padded marker. -/
theorem parseMetaActions_raw_invariant_witness :
    ∃ A B, A ≠ [] ∧ B ≠ [] ∧ (∀ c ∈ A, c ≠ ')') ∧ (∀ c ∈ B, c ≠ ']') ∧
      (strOf "@( x )[y]") = strOf "@(" ++ A ++ strOf ")[" ++ B ++ strOf "]" ∧
      (strOf "x") = jsTrim A ∧ (strOf "y") = jsTrim B :=
  (parseMetaActions_raw_invariant).1 (strOf "@( x )[y]")
    ⟨strOf "x", strOf "y", strOf "@( x )[y]"⟩ (by decide)

/-- C3 counterexample: in the document `@(a)[b]@(c)[d]` the spans are
pairwise distinct, yet resolving the first marker to the text `@(c)[d]` and
the second to `Z` makes the sequential rewriter (which searches the working
text) replace the copy introduced by the first result, producing
`Z@(c)[d]`, while splicing the resolved contents at the original positions
produces `@(c)[d]Z`. -/
theorem sequential_vs_splice_cex :
    ((scanMatches (strOf "@(a)[b]@(c)[d]")).map rawOf).Nodup ∧
    applySequential (strOf "@(a)[b]@(c)[d]")
      (List.zip ((scanMatches (strOf "@(a)[b]@(c)[d]")).map rawOf)
        [strOf "@(c)[d]", strOf "Z"]) = strOf "Z@(c)[d]" ∧
    spliceSeq (strOf "@(a)[b]@(c)[d]") 0
      (scanMatches (strOf "@(a)[b]@(c)[d]")) [strOf "@(c)[d]", strOf "Z"] =
      strOf "@(c)[d]Z" ∧
    applySequential (strOf "@(a)[b]@(c)[d]")
      (List.zip ((scanMatches (strOf "@(a)[b]@(c)[d]")).map rawOf)
        [strOf "@(c)[d]", strOf "Z"]) ≠
      spliceSeq (strOf "@(a)[b]@(c)[d]") 0
        (scanMatches (strOf "@(a)[b]@(c)[d]")) [strOf "@(c)[d]", strOf "Z"] := by
  refine ⟨by decide, by decide, by decide, by decide⟩

/-- Induction core for the amended C3: if every step's span first occurs at
its residual original position and results are dollar-free, the sequential
rewrite of the remaining suffix equals the splice. -/
theorem seq_eq_splice_aux : ∀ (ms : List RawMatch) (rs : List (List Char))
    (acc d : List Char) (base : Nat),
    decompFrom d base ms →
    (∀ r ∈ rs, '$' ∉ r) →
    goodSteps acc d base ms rs = true →
    applySequential (acc ++ d) (List.zip (ms.map rawOf) rs) =
      acc ++ spliceSeq d base ms rs := by
  intro ms
  induction ms with
  | nil =>
    intro rs acc d base _ _ _
    simp [applySequential, spliceSeq]
  | cons m ms' ih =>
    intro rs acc d base hdec hds hgs
    cases rs with
    | nil => simp [applySequential, spliceSeq]
    | cons r rs' =>
      obtain ⟨gap, tail, h1, h2, h3⟩ := hdec
      simp only [goodSteps, Bool.and_eq_true, beq_iff_eq] at hgs
      obtain ⟨hfo, hgs'⟩ := hgs
      have hgaplen : m.pos - base = gap.length := by omega
      rw [List.append_assoc] at h1
      have htake : d.take (m.pos - base) = gap := by
        rw [hgaplen, h1]
        exact List.take_left gap (rawOf m ++ tail)
      have hdrop : d.drop (m.pos - base + (rawOf m).length) = tail := by
        rw [hgaplen, h1, ← List.append_assoc]
        exact List.drop_left' (by simp)
      have hsplit : acc ++ d = (acc ++ gap) ++ rawOf m ++ tail := by
        rw [h1]
        simp [List.append_assoc]
      have hfo2 : firstOccur (rawOf m) ((acc ++ gap) ++ rawOf m ++ tail) =
          some (acc ++ gap).length := by
        rw [← hsplit, hfo, List.length_append, hgaplen]
      have hstep : jsReplace (acc ++ d) (rawOf m) r = (acc ++ gap) ++ r ++ tail := by
        rw [hsplit]
        exact jsReplace_at (acc ++ gap) (rawOf m) tail r hfo2
          (hds r (List.mem_cons_self r rs'))
      rw [htake, hdrop] at hgs'
      have hds' : ∀ x ∈ rs', '$' ∉ x := fun x hx => hds x (List.mem_cons_of_mem r hx)
      have hih := ih rs' (acc ++ gap ++ r) tail (m.pos + (rawOf m).length) h3 hds' hgs'
      simp only [List.map_cons, List.zip_cons_cons, applySequential]
      rw [hstep]
      simp only [List.zip] at hih
      rw [hih]
      simp only [spliceSeq, htake, hdrop]
      simp [List.append_assoc]

/-- C3 amended: when the parsed markers have pairwise-distinct source spans,
every resolved content is dollar-free, and at each step the first occurrence
of the marker's span in the working text is the residual original
occurrence, the rewriter's sequential substitution equals the offset-based
splice of the resolved contents into the original document. -/
theorem sequential_eq_splice (doc : List Char) (rs : List (List Char))
    (_hlen : rs.length = (scanMatches doc).length)
    (_hnd : ((scanMatches doc).map rawOf).Nodup)
    (hds : ∀ r ∈ rs, '$' ∉ r)
    (hgs : goodSteps [] doc 0 (scanMatches doc) rs = true) :
    applySequential doc (List.zip ((scanMatches doc).map rawOf) rs) =
      spliceSeq doc 0 (scanMatches doc) rs := by
  have h := seq_eq_splice_aux (scanMatches doc) rs [] doc 0
    (scanFuel_decomp doc.length doc 0 le_rfl) hds hgs
  simpa using h

/-- Witness for the amended C3 theorem on a single-marker document. -/
theorem sequential_eq_splice_witness :
    applySequential (strOf "x@(a)[b]y")
      (List.zip ((scanMatches (strOf "x@(a)[b]y")).map rawOf) [strOf "R"]) =
      spliceSeq (strOf "x@(a)[b]y") 0 (scanMatches (strOf "x@(a)[b]y")) [strOf "R"] :=
  sequential_eq_splice (strOf "x@(a)[b]y") [strOf "R"] (by decide) (by decide)
    (by decide) (by decide)

/-- Trailing trim keeps a list ending in a non-whitespace character. -/
theorem dropTrailWs_concat_nonws (xs : List Char) (b : Char) (hb : isJsWs b = false) :
    dropTrailWs (xs ++ [b]) = xs ++ [b] := by
  unfold dropTrailWs
  rw [List.reverse_append]
  simp [List.dropWhile_cons, hb]

/-- Trim keeps a list delimited by non-whitespace characters. -/
theorem jsTrim_sandwich (a b : Char) (xs : List Char)
    (ha : isJsWs a = false) (hb : isJsWs b = false) :
    jsTrim (a :: (xs ++ [b])) = a :: (xs ++ [b]) := by
  unfold jsTrim
  rw [List.dropWhile_cons, if_neg (by simp [ha])]
  have : a :: (xs ++ [b]) = (a :: xs) ++ [b] := by simp
  rw [this, dropTrailWs_concat_nonws _ _ hb]

set_option maxHeartbeats 1600000 in
/-- Reading back a quoted value: for a well-formed key (non-whitespace
head) and a line-terminator-free value surrounded by matching double or
single quotes, `readEnvValue` returns the unquoted content. -/
theorem envread_quotes (k0 : Char) (kt v : List Char) (q : Char)
    (hk0 : isJsWs k0 = false) (hv : ∀ ch ∈ v, isLineTerm ch = false)
    (hq : q = '"' ∨ q = squoteChar) :
    readEnvValue ((k0 :: kt) ++ '=' :: q :: (v ++ [q])) (k0 :: kt) = some v := by
  have hqw : isJsWs q = false := by rcases hq with h | h <;> subst h <;> decide
  have hqn : isLineTerm q = false := by rcases hq with h | h <;> subst h <;> decide
  have hkpre : (k0 :: kt).isPrefixOf ((k0 :: kt) ++ ('=' :: q :: (v ++ [q]))) = true :=
    isPrefixOf_append_self _ _
  have hg : (q :: (v ++ [q])).takeWhile (fun ch => !isLineTerm ch) = q :: (v ++ [q]) := by
    rw [List.takeWhile_eq_self_iff]
    intro x hx
    rcases List.mem_cons.mp hx with h | h
    · subst h; simp [hqn]
    · rcases List.mem_append.mp h with h | h
      · simp [hv x h]
      · rcases List.mem_singleton.mp h with rfl
        simp [hqn]
  have htry : tryCandidate (k0 :: kt) ((k0 :: kt) ++ '=' :: q :: (v ++ [q])) =
      some (0 + (k0 :: kt).length + 0 + 1 + 0 + (q :: (v ++ [q])).length + 0,
        q :: (v ++ [q])) := by
    have ha : wsRunLen ((k0 :: kt) ++ '=' :: q :: (v ++ [q])) = 0 := by
      simp [wsRunLen, List.takeWhile_cons, hk0]
    unfold tryCandidate
    rw [ha]
    show tryWithA (k0 :: kt) ((k0 :: kt) ++ '=' :: q :: (v ++ [q])) 0 = _
    unfold tryWithA
    simp only [List.drop_zero]
    rw [if_pos hkpre]
    have hdl : ((k0 :: kt) ++ '=' :: q :: (v ++ [q])).drop (k0 :: kt).length =
        '=' :: q :: (v ++ [q]) := List.drop_left _ _
    rw [hdl]
    have hb : wsRunLen ('=' :: q :: (v ++ [q])) = 0 := by
      have he : isJsWs '=' = false := by decide
      simp [wsRunLen, List.takeWhile_cons, he]
    rw [hb]
    simp only [List.drop_zero]
    have hc : wsRunLen (q :: (v ++ [q])) = 0 := by
      simp [wsRunLen, List.takeWhile_cons, hqw]
    rw [hc]
    simp only [List.drop_zero, hg, List.drop_length]
    rfl
  have hfind : findEnvMatch (k0 :: kt) ((k0 :: kt) ++ '=' :: q :: (v ++ [q])) =
      some (0, 0 + (k0 :: kt).length + 0 + 1 + 0 + (q :: (v ++ [q])).length + 0,
        q :: (v ++ [q])) := by
    unfold findEnvMatch
    show findEnvMatchAux (k0 :: kt) (k0 :: (kt ++ '=' :: q :: (v ++ [q]))) true 0 = _
    have hcons : (k0 :: (kt ++ '=' :: q :: (v ++ [q]))) =
        ((k0 :: kt) ++ '=' :: q :: (v ++ [q])) := by
      simp
    simp only [findEnvMatchAux, hcons, htry]
    simp
  unfold readEnvValue
  rw [hfind]
  dsimp only
  have htrim : jsTrim (q :: (v ++ [q])) = q :: (v ++ [q]) :=
    jsTrim_sandwich q q v hqw hqw
  rw [htrim]
  have hlast : (q :: (v ++ [q])).getLast? = some q := by
    have : q :: (v ++ [q]) = (q :: v) ++ [q] := by simp
    rw [this, List.getLast?_concat]
  have hcond : (q :: (v ++ [q])) ≠ [] ∧
      (((q :: (v ++ [q])).head? = some '"' ∧ (q :: (v ++ [q])).getLast? = some '"') ∨
        ((q :: (v ++ [q])).head? = some squoteChar ∧
          (q :: (v ++ [q])).getLast? = some squoteChar)) := by
    refine ⟨by simp, ?_⟩
    rcases hq with h | h
    · subst h; exact Or.inl ⟨rfl, hlast⟩
    · subst h; exact Or.inr ⟨rfl, hlast⟩
  unfold unquoteEnv
  rw [if_pos hcond]
  have : (q :: (v ++ [q])).drop 1 = v ++ [q] := rfl
  rw [this]
  rw [List.dropLast_concat]

/-- C9 counterexample: the env regex `^\s*KEY\s*=...` lets the leading
`\s*` run across line terminators, so writing `K=new` into
`A=1\n\nK=old\nB=2` swallows the blank line before the key line instead
of leaving every other line untouched. -/
theorem writeEnv_blankline_cex :
    writeEnvValue (strOf "A=1\n\nK=old\nB=2") (strOf "K") (strOf "new") =
      strOf "A=1\nK=new\nB=2" ∧
    writeEnvValue (strOf "A=1\n\nK=old\nB=2") (strOf "K") (strOf "new") ≠
      strOf "A=1\n\nK=new\nB=2" := by
  refine ⟨by decide, by decide⟩

/-- C9 amended: reading tolerates surrounding single or double quotes
around a line-terminator-free value, returning the unquoted content;
writing with a dollar-free key and value replaces the first regex-matched
region — which can extend over whitespace (including whole blank lines)
preceding the key's line, and over trailing whitespace up to the last
position before a line terminator or the end of input — with `key=value`,
preserving every character outside that region; in particular, when the
matched region is exactly the key's line (`env = P ++ L ++ S`), the line is
replaced in place with all other text preserved; when no match exists the
line is appended after a separating newline, preserving the existing
text. -/
theorem envValue_rw_spec :
    (∀ (k0 : Char) (kt v : List Char) (q : Char),
      isJsWs k0 = false → (∀ ch ∈ v, isLineTerm ch = false) →
      (q = '"' ∨ q = squoteChar) →
      readEnvValue ((k0 :: kt) ++ '=' :: q :: (v ++ [q])) (k0 :: kt) = some v) ∧
    (∀ env key value pos len g,
      jsTrim env ≠ [] → findEnvMatch key env = some (pos, len, g) →
      '$' ∉ key → '$' ∉ value →
      writeEnvValue env key value =
        env.take pos ++ (key ++ '=' :: value) ++ env.drop (pos + len)) ∧
    (∀ env key value, jsTrim env ≠ [] → findEnvMatch key env = none →
      writeEnvValue env key value =
        env ++ (if env.getLast? = some '\n' then [] else ['\n']) ++
          ((key ++ '=' :: value) ++ ['\n'])) ∧
    (∀ (P L S key value : List Char) (g : List Char),
      jsTrim (P ++ L ++ S) ≠ [] →
      findEnvMatch key (P ++ L ++ S) = some (P.length, L.length, g) →
      '$' ∉ key → '$' ∉ value →
      writeEnvValue (P ++ L ++ S) key value = P ++ (key ++ '=' :: value) ++ S) := by
  have hnotblank : ∀ env : List Char, jsTrim env ≠ [] →
      ¬(env = [] ∨ jsTrim env = []) := by
    intro env h hc
    rcases hc with hc | hc
    · exact h (hc ▸ jsTrim_nil)
    · exact h hc
  have hwrite : ∀ env key value pos len g,
      jsTrim env ≠ [] → findEnvMatch key env = some (pos, len, g) →
      '$' ∉ key → '$' ∉ value →
      writeEnvValue env key value =
        env.take pos ++ (key ++ '=' :: value) ++ env.drop (pos + len) := by
    intro env key value pos len g h1 h2 hk hv
    have hnd : '$' ∉ key ++ '=' :: value := by
      intro hm
      rcases List.mem_append.mp hm with h | h
      · exact hk h
      · rcases List.mem_cons.mp h with h | h
        · cases h
        · exact hv h
    unfold writeEnvValue
    rw [if_neg (hnotblank env h1), h2]
    dsimp only
    rw [dollarSub_no_dollar _ _ _ _ hnd]
  refine ⟨envread_quotes, hwrite, ?_, ?_⟩
  · intro env key value h1 h2
    unfold writeEnvValue
    rw [if_neg (hnotblank env h1), h2]
    simp
  · intro P L S key value g h1 h2 hk hv
    have h := hwrite (P ++ L ++ S) key value P.length L.length g h1 h2 hk hv
    rw [h]
    have ht : (P ++ L ++ S).take P.length = P := by
      rw [List.append_assoc]
      exact List.take_left _ _
    have hd : (P ++ L ++ S).drop (P.length + L.length) = S :=
      List.drop_left' (by simp)
    rw [ht, hd]

/-- Witness for the amended C9 theorem: in-place replacement of the `K`
line of a three-line env file. -/
theorem envValue_rw_spec_witness :
    writeEnvValue (strOf "A=1\nK=old\nB=2") (strOf "K") (strOf "new") =
      strOf "A=1\n" ++ ((strOf "K") ++ '=' :: (strOf "new")) ++ strOf "\nB=2" := by
  have h := (envValue_rw_spec).2.2.2 (strOf "A=1\n") (strOf "K=old") (strOf "\nB=2")
    (strOf "K") (strOf "new") (strOf "old") (by decide) (by decide) (by decide) (by decide)
  exact h
